import Mathlib

/-!
Verification of the debt-projection dashboard (Strategy Advisor, Projection
Engine) and the login gate, as a shallow embedding of the TypeScript source.
Currency arithmetic is embedded over the rationals; JavaScript rounding
semantics are made explicit where the source rounds.
-/

set_option maxHeartbeats 1000000

/- The Batteries rational-number operations are irreducible by default,
which blocks kernel evaluation of concrete simulation runs; restore the
ordinary reducibility so that decide can evaluate the embedded engine. -/
set_option allowUnsafeReducibility true in
attribute [semireducible] Rat.add Rat.sub Rat.mul Rat.inv Rat.ofScientific

/-- Strategy identifiers, mirroring the TS union type
StrategyType = snowball | avalanche. -/
inductive Strategy where
  | snowball
  | avalanche
deriving DecidableEq

/-- Debt record, restricted to the fields the embedded computations read
(name, currentAmount, interestRate, minPayment).  The interestRate field is
optional in the source; absent is embedded as none.  The presentation-only
fields initialAmount and color are never read by the advisor or the engine
and are omitted. -/
structure Debt where
  name : String
  currentAmount : ℚ
  interestRate : Option ℚ
  minPayment : ℚ
deriving DecidableEq

/-- Embeds the JS expression d.interestRate || 0: a missing rate is read as
0 (a stored rate of 0 also yields 0, matching JS falsiness of 0). -/
def rateOr0 (d : Debt) : ℚ :=
  d.interestRate.getD 0

/-- Whether d.interestRate is truthy in JS: present and nonzero. -/
def rateTruthy (d : Debt) : Bool :=
  match d.interestRate with
  | none => false
  | some r => decide (r ≠ 0)

/-- Sum of the currentAmount fields: embeds
debts.reduce((acc, d) => acc + d.currentAmount, 0). -/
def totalOf (ds : List Debt) : ℚ :=
  (ds.map Debt.currentAmount).sum

/-- Embeds activeDebts.sort((a, b) => k(b) - k(a))[0] together with the
position of the selected object in the traversed list.  ES2019 sort is
stable, so the head of the descending sort is the first debt attaining the
maximal key; inactive debts (currentAmount ≤ 0) are skipped, mirroring the
filter to active debts the source performs before sorting.  The returned
index locates the selected object in the unfiltered list, which is where
the engine mutates it in place. -/
def firstMaxBy (k : Debt → ℚ) : List Debt → Option (ℕ × Debt)
  | [] => none
  | d :: ds =>
    match firstMaxBy k ds with
    | none => if 0 < d.currentAmount then some (0, d) else none
    | some (j, c) =>
      if 0 < d.currentAmount then
        if k d < k c then some (j + 1, c) else some (0, d)
      else some (j + 1, c)

/-- Embeds activeDebts.sort((a, b) => k(a) - k(b))[0]: the first active debt
attaining the minimal key, with its index in the unfiltered list. -/
def firstMinBy (k : Debt → ℚ) : List Debt → Option (ℕ × Debt)
  | [] => none
  | d :: ds =>
    match firstMinBy k ds with
    | none => if 0 < d.currentAmount then some (0, d) else none
    | some (j, c) =>
      if 0 < d.currentAmount then
        if k c < k d then some (j + 1, c) else some (0, d)
      else some (j + 1, c)

/-- The justification message of the advisor, abstracted from the Spanish
template strings of the source: each constructor records which message was
chosen and the data (debt name, rate or balance) interpolated into it. -/
inductive Reason where
  | highInterest (name : String) (rate : ℚ)
  | smallDebt (name : String) (amount : ℚ)
  | math
deriving DecidableEq

/-- Result object of the advisor, mirroring
{ recommended, reason, maxInterestDebt, minBalanceDebt }. -/
structure Analysis where
  recommended : Strategy
  reason : Reason
  maxInterestDebt : Debt
  minBalanceDebt : Debt
deriving DecidableEq

/-- Embeds the advisor (the analysis useMemo of the Dashboard): filter to
active debts, return none when the filtered list is empty, otherwise select
the highest-interest and lowest-balance active debts by stable sort and
apply the threshold rules (rate above 40 percent, balance below 5000). -/
def analysis (debts : List Debt) : Option Analysis :=
  let activeDebts := debts.filter fun d => decide (0 < d.currentAmount)
  match firstMaxBy rateOr0 activeDebts, firstMinBy Debt.currentAmount activeDebts with
  | some (_, maxInterestDebt), some (_, minBalanceDebt) =>
    let maxInterest := rateOr0 maxInterestDebt
    let rr : Strategy × Reason :=
      if 40 < maxInterest then
        (.avalanche, .highInterest maxInterestDebt.name maxInterest)
      else if minBalanceDebt.currentAmount < 5000 then
        (.snowball, .smallDebt minBalanceDebt.name minBalanceDebt.currentAmount)
      else
        (.avalanche, .math)
    some ⟨rr.1, rr.2, maxInterestDebt, minBalanceDebt⟩
  | _, _ => none

/-- Math.min on two rationals.  Written with an explicit comparison so the
kernel can evaluate it on concrete inputs. -/
def jsMin (a b : ℚ) : ℚ :=
  if b < a then b else a

/-- Math.max on two integers, written with an explicit comparison. -/
def jsMax (a b : ℤ) : ℤ :=
  if a ≤ b then b else a

/-- Interest accrual on one debt, embedding the body of the forEach at
step 1 of the simulated month: if the balance is positive and the rate is
truthy, add balance * (rate / 100) / 12; otherwise leave the debt alone. -/
def applyInterest (d : Debt) : Debt :=
  match d.interestRate with
  | some r =>
    if 0 < d.currentAmount ∧ r ≠ 0 then
      { d with currentAmount := d.currentAmount + d.currentAmount * (r / 100 / 12) }
    else d
  | none => d

/-- Minimum-payment pass, embedding the forEach at step 2 of the simulated
month: each debt with positive balance pays min(balance, minPayment), and
every such payment is subtracted from the running monthly budget.  The
source imposes no lower bound on the budget, so it can go negative. -/
def payMinimums : List Debt → ℚ → List Debt × ℚ
  | [], b => ([], b)
  | d :: ds, b =>
    if 0 < d.currentAmount then
      let payment := jsMin d.currentAmount d.minPayment
      let r := payMinimums ds (b - payment)
      ({ d with currentAmount := d.currentAmount - payment } :: r.1, r.2)
    else
      let r := payMinimums ds b
      (d :: r.1, r.2)

/-- Target of the extra payment: the head of the strategy sort over active
debts (ascending balance for snowball, descending rate-or-0 for avalanche),
located by its index in the unfiltered debt list. -/
def targetOf (strat : Strategy) (ds : List Debt) : Option (ℕ × Debt) :=
  match strat with
  | .snowball => firstMinBy Debt.currentAmount ds
  | .avalanche => firstMaxBy rateOr0 ds

/-- Extra-payment pass, embedding step 3 of the simulated month.  Returns
the new debts, the new budget and the amount added to accumulatedWealth in
this pass.  When the budget is positive and an active debt exists, the full
min(targetBalance, budget) goes to the single target; when no debt is
active the whole budget is added to wealth and, as in the source, the
budget variable itself is left unchanged. -/
def payExtra (strat : Strategy) (ds : List Debt) (b : ℚ) : List Debt × ℚ × ℚ :=
  if 0 < b then
    match targetOf strat ds with
    | some (i, d) =>
      let extraPayment := jsMin d.currentAmount b
      (ds.set i { d with currentAmount := d.currentAmount - extraPayment },
        b - extraPayment, 0)
    | none => (ds, b, b)
  else (ds, b, 0)

/-- Steps 2 to 4 of a simulated month, applied to debts that have already
accrued interest: pay minimums, pay extra, accumulate wealth, and re-add
any positive leftover budget to wealth when the total debt is zero (the
leftover check at the end of the loop body). -/
def monthPay (strat : Strategy) (cap : ℚ) (ds : List Debt) (w : ℚ) :
    List Debt × ℚ :=
  let m := payMinimums ds cap
  let e := payExtra strat m.1 m.2
  let w1 := w + e.2.2
  if totalOf e.1 = 0 ∧ 0 < e.2.1 then (e.1, w1 + e.2.1) else (e.1, w1)

/-- One simulated month: interest accrues on every debt first (on the
pre-payment balances), then the payment passes run on the resulting
balances with a fresh budget of paymentCapacity. -/
def monthStep (strat : Strategy) (cap : ℚ) (ds : List Debt) (w : ℚ) :
    List Debt × ℚ :=
  monthPay strat cap (ds.map applyInterest) w

/-- The hard stop of the projection loop (maxMonths = 60 in the source). -/
def maxMonths : ℕ := 60

/-- JavaScript Math.round on a rational: round half away from zero upward,
which for finite values is the floor of x + 1/2. -/
def jsRound (x : ℚ) : ℤ :=
  (x + 1 / 2).floor

/-- One chart point, mirroring { month, deuda, riqueza, index }. -/
structure ProjPoint where
  month : String
  deuda : ℚ
  riqueza : ℚ
  index : ℕ
deriving DecidableEq

/-- The point pushed for simulated month m, embedding
{ month: Mes m, deuda: Math.max(0, Math.round(total)),
  riqueza: Math.round(wealth), index: m }. -/
def mkPoint (m : ℕ) (total w : ℚ) : ProjPoint :=
  ⟨"Mes " ++ toString m, ((jsMax 0 (jsRound total) : ℤ) : ℚ),
    ((jsRound w : ℤ) : ℚ), m⟩

/-- The simulation loop.  The fuel argument is an upper bound on the number
of remaining iterations used only to make the recursion structural; the
while guard of the source, (totalDebt > 0 or month < 12) and
month < maxMonths, is tested explicitly each iteration, and projection
calls the loop with fuel maxMonths so that the guard, not the fuel, ends
the run (made precise by loopF_fuel_irrel below). -/
def loopF (strat : Strategy) (cap : ℚ) :
    ℕ → List Debt → ℚ → ℕ → List ProjPoint
  | 0, _, _, _ => []
  | fuel + 1, ds, w, month =>
    if (0 < totalOf ds ∨ month < 12) ∧ month < maxMonths then
      let s := monthStep strat cap ds w
      mkPoint (month + 1) (totalOf s.1) s.2 ::
        loopF strat cap fuel s.1 s.2 (month + 1)
    else []

/-- The raw simulated states behind the loop: for each simulated month, the
month number, the debt balances and the accumulated wealth, before any
rounding.  Same guard and step as loopF. -/
def simStates (strat : Strategy) (cap : ℚ) :
    ℕ → List Debt → ℚ → ℕ → List (ℕ × List Debt × ℚ)
  | 0, _, _, _ => []
  | fuel + 1, ds, w, month =>
    if (0 < totalOf ds ∨ month < 12) ∧ month < maxMonths then
      let s := monthStep strat cap ds w
      (month + 1, s.1, s.2) ::
        simStates strat cap fuel s.1 s.2 (month + 1)
    else []

/-- Output of the projection engine, mirroring
{ data: projectionData, debtFreeInMonths }.  The debtFreeDate field of the
source is today plus debtFreeInMonths calendar months; it reads the global
clock and is not part of the embedded state. -/
structure Projection where
  data : List ProjPoint
  debtFreeInMonths : ℕ
deriving DecidableEq

/-- JavaScript x || dflt on an optional number: the default is taken both
when the value is absent and when it is 0, since 0 is falsy. -/
def jsOr (x : Option ℕ) (dflt : ℕ) : ℕ :=
  match x with
  | none => dflt
  | some n => if n = 0 then dflt else n

/-- The projection engine (the projection useMemo of the Dashboard): null
when the current total debt is 0, otherwise the seed point carrying the raw
total debt followed by one point per simulated month, with
debtFreeInMonths the index of the first point whose deuda is 0, defaulted
to maxMonths through JS ||. -/
def projection (strat : Strategy) (paymentCapacity : ℚ) (debts : List Debt) :
    Option Projection :=
  if totalOf debts = 0 then none
  else
    let seed : ProjPoint := ⟨"Hoy", totalOf debts, 0, 0⟩
    let pts := seed :: loopF strat paymentCapacity maxMonths debts 0 0
    let found := (pts.find? fun p => decide (p.deuda = 0)).map ProjPoint.index
    some ⟨pts, jsOr found maxMonths⟩

/-- The observable outcome of the login gate: onLogin fired, the form rejected
with an error message and cleared PIN, or nothing (no user selected). -/
inductive LoginResult where
  | login (user : String)
  | rejected (error : String) (pin : String)
  | noUser
deriving DecidableEq

/-- Embeds handleLogin of the Login component: early return without a
selected user; onLogin(selectedUser) exactly when the PIN is 2024;
otherwise set the error PIN Incorrecto and clear the PIN. -/
def handleLogin (selectedUser : Option String) (pin : String) : LoginResult :=
  match selectedUser with
  | none => .noUser
  | some u =>
    if pin = "2024" then .login u
    else .rejected "PIN Incorrecto" ""

/-- The per-debt effect of the minimum-payment pass: a debt with positive
balance pays min(balance, minPayment); other debts are untouched. -/
def payMinOne (d : Debt) : Debt :=
  if 0 < d.currentAmount then
    { d with currentAmount := d.currentAmount - jsMin d.currentAmount d.minPayment }
  else d

/-- Total amount deducted from debts by the minimum-payment pass. -/
def minDue (ds : List Debt) : ℚ :=
  (ds.map fun d =>
    if 0 < d.currentAmount then jsMin d.currentAmount d.minPayment else 0).sum

/-- Scenario B month-1 state after interest and minimum payments: debt A
at 950 with rate 60, debt B at 4941 with rate 10. -/
def scenarioB : List Debt :=
  [⟨"A", 950, some 60, 100⟩, ⟨"B", 4941, some 10, 100⟩]

/-- A one-debt list on which the advisor must fire its first rule. -/
def adviceInput : List Debt := [⟨"Visa", 1000, some 60, 100⟩]

/-- A paid-off zero-balance debt with a high rate, followed by two active
debts tied on both interest rate and balance: every selection must skip
the inactive debt Z and resolve the tie to the first active debt A. -/
def tiedPair : List Debt :=
  [⟨"Z", 0, some 99, 10⟩, ⟨"A", 100, some 20, 10⟩, ⟨"B", 100, some 20, 10⟩]

theorem jsMin_eq_min (a b : ℚ) : jsMin a b = min a b := by
  rcases lt_or_le b a with h | h
  · simp [jsMin, h, min_eq_right h.le]
  · simp [jsMin, not_lt.2 h, min_eq_left h]

theorem jsMax_eq_max (a b : ℤ) : jsMax a b = max a b := by
  simp [jsMax, max_def]

theorem jsRound_eq_floor (x : ℚ) : jsRound x = ⌊x + 1 / 2⌋ := by
  rw [jsRound, Rat.floor_def', Rat.floor_def]

theorem firstMaxBy_none {k : Debt → ℚ} :
    ∀ {ds : List Debt}, firstMaxBy k ds = none →
      ∀ d ∈ ds, ¬ 0 < d.currentAmount := by
  intro ds
  induction ds with
  | nil => intro _ d hd; cases hd
  | cons x ds ih =>
    intro h d hd
    rw [firstMaxBy] at h
    rcases hr : firstMaxBy k ds with _ | ⟨j, c⟩ <;> rw [hr] at h <;> dsimp only at h
    · by_cases hx : 0 < x.currentAmount
      · rw [if_pos hx] at h; cases h
      · rcases List.mem_cons.mp hd with rfl | hd2
        · exact hx
        · exact ih hr d hd2
    · by_cases hx : 0 < x.currentAmount
      · by_cases hk : k x < k c
        · rw [if_pos hx, if_pos hk] at h; cases h
        · rw [if_pos hx, if_neg hk] at h; cases h
      · rw [if_neg hx] at h; cases h

theorem firstMinBy_none {k : Debt → ℚ} :
    ∀ {ds : List Debt}, firstMinBy k ds = none →
      ∀ d ∈ ds, ¬ 0 < d.currentAmount := by
  intro ds
  induction ds with
  | nil => intro _ d hd; cases hd
  | cons x ds ih =>
    intro h d hd
    rw [firstMinBy] at h
    rcases hr : firstMinBy k ds with _ | ⟨j, c⟩ <;> rw [hr] at h <;> dsimp only at h
    · by_cases hx : 0 < x.currentAmount
      · rw [if_pos hx] at h; cases h
      · rcases List.mem_cons.mp hd with rfl | hd2
        · exact hx
        · exact ih hr d hd2
    · by_cases hx : 0 < x.currentAmount
      · by_cases hk : k c < k x
        · rw [if_pos hx, if_pos hk] at h; cases h
        · rw [if_pos hx, if_neg hk] at h; cases h
      · rw [if_neg hx] at h; cases h

theorem firstMaxBy_mem {k : Debt → ℚ} :
    ∀ {ds : List Debt} {i : ℕ} {d : Debt}, firstMaxBy k ds = some (i, d) →
      d ∈ ds ∧ 0 < d.currentAmount := by
  intro ds
  induction ds with
  | nil => intro i d h; cases h
  | cons x ds ih =>
    intro i d h
    rw [firstMaxBy] at h
    rcases hr : firstMaxBy k ds with _ | ⟨j, c⟩ <;> rw [hr] at h <;> dsimp only at h
    · by_cases hx : 0 < x.currentAmount
      · rw [if_pos hx] at h
        obtain ⟨rfl, rfl⟩ : (0, x) = (i, d) := Option.some_inj.mp h
        exact ⟨List.mem_cons_self _ _, hx⟩
      · rw [if_neg hx] at h; cases h
    · by_cases hx : 0 < x.currentAmount
      · by_cases hk : k x < k c
        · rw [if_pos hx, if_pos hk] at h
          obtain ⟨rfl, rfl⟩ : (j + 1, c) = (i, d) := Option.some_inj.mp h
          exact ⟨List.mem_cons_of_mem _ (ih hr).1, (ih hr).2⟩
        · rw [if_pos hx, if_neg hk] at h
          obtain ⟨rfl, rfl⟩ : (0, x) = (i, d) := Option.some_inj.mp h
          exact ⟨List.mem_cons_self _ _, hx⟩
      · rw [if_neg hx] at h
        obtain ⟨rfl, rfl⟩ : (j + 1, c) = (i, d) := Option.some_inj.mp h
        exact ⟨List.mem_cons_of_mem _ (ih hr).1, (ih hr).2⟩

theorem firstMinBy_mem {k : Debt → ℚ} :
    ∀ {ds : List Debt} {i : ℕ} {d : Debt}, firstMinBy k ds = some (i, d) →
      d ∈ ds ∧ 0 < d.currentAmount := by
  intro ds
  induction ds with
  | nil => intro i d h; cases h
  | cons x ds ih =>
    intro i d h
    rw [firstMinBy] at h
    rcases hr : firstMinBy k ds with _ | ⟨j, c⟩ <;> rw [hr] at h <;> dsimp only at h
    · by_cases hx : 0 < x.currentAmount
      · rw [if_pos hx] at h
        obtain ⟨rfl, rfl⟩ : (0, x) = (i, d) := Option.some_inj.mp h
        exact ⟨List.mem_cons_self _ _, hx⟩
      · rw [if_neg hx] at h; cases h
    · by_cases hx : 0 < x.currentAmount
      · by_cases hk : k c < k x
        · rw [if_pos hx, if_pos hk] at h
          obtain ⟨rfl, rfl⟩ : (j + 1, c) = (i, d) := Option.some_inj.mp h
          exact ⟨List.mem_cons_of_mem _ (ih hr).1, (ih hr).2⟩
        · rw [if_pos hx, if_neg hk] at h
          obtain ⟨rfl, rfl⟩ : (0, x) = (i, d) := Option.some_inj.mp h
          exact ⟨List.mem_cons_self _ _, hx⟩
      · rw [if_neg hx] at h
        obtain ⟨rfl, rfl⟩ : (j + 1, c) = (i, d) := Option.some_inj.mp h
        exact ⟨List.mem_cons_of_mem _ (ih hr).1, (ih hr).2⟩

theorem firstMaxBy_le {k : Debt → ℚ} :
    ∀ {ds : List Debt} {i : ℕ} {d : Debt}, firstMaxBy k ds = some (i, d) →
      ∀ e ∈ ds, 0 < e.currentAmount → k e ≤ k d := by
  intro ds
  induction ds with
  | nil => intro i d h; cases h
  | cons x ds ih =>
    intro i d h e he hact
    rw [firstMaxBy] at h
    rcases hr : firstMaxBy k ds with _ | ⟨j, c⟩ <;> rw [hr] at h <;> dsimp only at h
    · by_cases hx : 0 < x.currentAmount
      · rw [if_pos hx] at h
        obtain ⟨rfl, rfl⟩ : (0, x) = (i, d) := Option.some_inj.mp h
        rcases List.mem_cons.mp he with rfl | he2
        · exact le_refl _
        · exact absurd hact (firstMaxBy_none hr e he2)
      · rw [if_neg hx] at h; cases h
    · by_cases hx : 0 < x.currentAmount
      · by_cases hk : k x < k c
        · rw [if_pos hx, if_pos hk] at h
          obtain ⟨rfl, rfl⟩ : (j + 1, c) = (i, d) := Option.some_inj.mp h
          rcases List.mem_cons.mp he with rfl | he2
          · exact hk.le
          · exact ih hr e he2 hact
        · rw [if_pos hx, if_neg hk] at h
          obtain ⟨rfl, rfl⟩ : (0, x) = (i, d) := Option.some_inj.mp h
          rcases List.mem_cons.mp he with rfl | he2
          · exact le_refl _
          · exact (ih hr e he2 hact).trans (not_lt.mp hk)
      · rw [if_neg hx] at h
        obtain ⟨rfl, rfl⟩ : (j + 1, c) = (i, d) := Option.some_inj.mp h
        rcases List.mem_cons.mp he with rfl | he2
        · exact absurd hact hx
        · exact ih hr e he2 hact

theorem firstMinBy_le {k : Debt → ℚ} :
    ∀ {ds : List Debt} {i : ℕ} {d : Debt}, firstMinBy k ds = some (i, d) →
      ∀ e ∈ ds, 0 < e.currentAmount → k d ≤ k e := by
  intro ds
  induction ds with
  | nil => intro i d h; cases h
  | cons x ds ih =>
    intro i d h e he hact
    rw [firstMinBy] at h
    rcases hr : firstMinBy k ds with _ | ⟨j, c⟩ <;> rw [hr] at h <;> dsimp only at h
    · by_cases hx : 0 < x.currentAmount
      · rw [if_pos hx] at h
        obtain ⟨rfl, rfl⟩ : (0, x) = (i, d) := Option.some_inj.mp h
        rcases List.mem_cons.mp he with rfl | he2
        · exact le_refl _
        · exact absurd hact (firstMinBy_none hr e he2)
      · rw [if_neg hx] at h; cases h
    · by_cases hx : 0 < x.currentAmount
      · by_cases hk : k c < k x
        · rw [if_pos hx, if_pos hk] at h
          obtain ⟨rfl, rfl⟩ : (j + 1, c) = (i, d) := Option.some_inj.mp h
          rcases List.mem_cons.mp he with rfl | he2
          · exact hk.le
          · exact ih hr e he2 hact
        · rw [if_pos hx, if_neg hk] at h
          obtain ⟨rfl, rfl⟩ : (0, x) = (i, d) := Option.some_inj.mp h
          rcases List.mem_cons.mp he with rfl | he2
          · exact le_refl _
          · exact (not_lt.mp hk).trans (ih hr e he2 hact)
      · rw [if_neg hx] at h
        obtain ⟨rfl, rfl⟩ : (j + 1, c) = (i, d) := Option.some_inj.mp h
        rcases List.mem_cons.mp he with rfl | he2
        · exact absurd hact hx
        · exact ih hr e he2 hact

theorem firstMaxBy_idx {k : Debt → ℚ} :
    ∀ {ds : List Debt} {i : ℕ} {d : Debt}, firstMaxBy k ds = some (i, d) →
      ∃ h : i < ds.length, ds[i] = d ∧
        ∀ j (hj : j < ds.length), j < i →
          0 < ds[j].currentAmount → k ds[j] < k d := by
  intro ds
  induction ds with
  | nil => intro i d h; cases h
  | cons x ds ih =>
    intro i d h
    rw [firstMaxBy] at h
    rcases hr : firstMaxBy k ds with _ | ⟨j, c⟩ <;> rw [hr] at h <;> dsimp only at h
    · by_cases hx : 0 < x.currentAmount
      · rw [if_pos hx] at h
        obtain ⟨rfl, rfl⟩ : (0, x) = (i, d) := Option.some_inj.mp h
        exact ⟨Nat.succ_pos _, rfl, fun j2 hj2 hlt => absurd hlt (Nat.not_lt_zero _)⟩
      · rw [if_neg hx] at h; cases h
    · by_cases hx : 0 < x.currentAmount
      · by_cases hk : k x < k c
        · rw [if_pos hx, if_pos hk] at h
          obtain ⟨rfl, rfl⟩ : (j + 1, c) = (i, d) := Option.some_inj.mp h
          obtain ⟨hlt, hget, hstrict⟩ := ih hr
          refine ⟨Nat.succ_lt_succ hlt, by simpa using hget, ?_⟩
          intro j2 hj2 hlt2 hact
          rcases j2 with _ | j2
          · simpa using hk
          · have hj3 : j2 < ds.length := by
              simpa [List.length_cons] using Nat.lt_of_succ_lt_succ hj2
            simp only [List.getElem_cons_succ] at hact ⊢
            exact hstrict j2 hj3 (Nat.lt_of_succ_lt_succ hlt2) hact
        · rw [if_pos hx, if_neg hk] at h
          obtain ⟨rfl, rfl⟩ : (0, x) = (i, d) := Option.some_inj.mp h
          exact ⟨Nat.succ_pos _, rfl, fun j2 hj2 hlt => absurd hlt (Nat.not_lt_zero _)⟩
      · rw [if_neg hx] at h
        obtain ⟨rfl, rfl⟩ : (j + 1, c) = (i, d) := Option.some_inj.mp h
        obtain ⟨hlt, hget, hstrict⟩ := ih hr
        refine ⟨Nat.succ_lt_succ hlt, by simpa using hget, ?_⟩
        intro j2 hj2 hlt2 hact
        rcases j2 with _ | j2
        · exact absurd (by simpa using hact) hx
        · have hj3 : j2 < ds.length := by
            simpa [List.length_cons] using Nat.lt_of_succ_lt_succ hj2
          simp only [List.getElem_cons_succ] at hact ⊢
          exact hstrict j2 hj3 (Nat.lt_of_succ_lt_succ hlt2) hact

theorem firstMinBy_idx {k : Debt → ℚ} :
    ∀ {ds : List Debt} {i : ℕ} {d : Debt}, firstMinBy k ds = some (i, d) →
      ∃ h : i < ds.length, ds[i] = d ∧
        ∀ j (hj : j < ds.length), j < i →
          0 < ds[j].currentAmount → k d < k ds[j] := by
  intro ds
  induction ds with
  | nil => intro i d h; cases h
  | cons x ds ih =>
    intro i d h
    rw [firstMinBy] at h
    rcases hr : firstMinBy k ds with _ | ⟨j, c⟩ <;> rw [hr] at h <;> dsimp only at h
    · by_cases hx : 0 < x.currentAmount
      · rw [if_pos hx] at h
        obtain ⟨rfl, rfl⟩ : (0, x) = (i, d) := Option.some_inj.mp h
        exact ⟨Nat.succ_pos _, rfl, fun j2 hj2 hlt => absurd hlt (Nat.not_lt_zero _)⟩
      · rw [if_neg hx] at h; cases h
    · by_cases hx : 0 < x.currentAmount
      · by_cases hk : k c < k x
        · rw [if_pos hx, if_pos hk] at h
          obtain ⟨rfl, rfl⟩ : (j + 1, c) = (i, d) := Option.some_inj.mp h
          obtain ⟨hlt, hget, hstrict⟩ := ih hr
          refine ⟨Nat.succ_lt_succ hlt, by simpa using hget, ?_⟩
          intro j2 hj2 hlt2 hact
          rcases j2 with _ | j2
          · simpa using hk
          · have hj3 : j2 < ds.length := by
              simpa [List.length_cons] using Nat.lt_of_succ_lt_succ hj2
            simp only [List.getElem_cons_succ] at hact ⊢
            exact hstrict j2 hj3 (Nat.lt_of_succ_lt_succ hlt2) hact
        · rw [if_pos hx, if_neg hk] at h
          obtain ⟨rfl, rfl⟩ : (0, x) = (i, d) := Option.some_inj.mp h
          exact ⟨Nat.succ_pos _, rfl, fun j2 hj2 hlt => absurd hlt (Nat.not_lt_zero _)⟩
      · rw [if_neg hx] at h
        obtain ⟨rfl, rfl⟩ : (j + 1, c) = (i, d) := Option.some_inj.mp h
        obtain ⟨hlt, hget, hstrict⟩ := ih hr
        refine ⟨Nat.succ_lt_succ hlt, by simpa using hget, ?_⟩
        intro j2 hj2 hlt2 hact
        rcases j2 with _ | j2
        · exact absurd (by simpa using hact) hx
        · have hj3 : j2 < ds.length := by
            simpa [List.length_cons] using Nat.lt_of_succ_lt_succ hj2
          simp only [List.getElem_cons_succ] at hact ⊢
          exact hstrict j2 hj3 (Nat.lt_of_succ_lt_succ hlt2) hact

theorem loopF_length_le (strat : Strategy) (cap : ℚ) :
    ∀ (f : ℕ) (ds : List Debt) (w : ℚ) (m : ℕ),
      (loopF strat cap f ds w m).length ≤ f := by
  intro f
  induction f with
  | zero => intro ds w m; rw [loopF]; exact Nat.le_refl _
  | succ f ih =>
    intro ds w m
    rw [loopF]
    split
    · dsimp only
      rw [List.length_cons]
      exact Nat.succ_le_succ (ih _ _ _)
    · exact Nat.zero_le _

theorem loopF_length_ge (strat : Strategy) (cap : ℚ) :
    ∀ (f : ℕ) (ds : List Debt) (w : ℚ) (m : ℕ), 12 - m ≤ f →
      12 - m ≤ (loopF strat cap f ds w m).length := by
  intro f
  induction f with
  | zero => intro ds w m h; omega
  | succ f ih =>
    intro ds w m h
    by_cases hm : m < 12
    · rw [loopF, if_pos ⟨Or.inr hm, by rw [maxMonths]; omega⟩]
      dsimp only
      rw [List.length_cons]
      have := ih (monthStep strat cap ds w).1 (monthStep strat cap ds w).2
        (m + 1) (by omega)
      omega
    · omega

theorem loopF_fuel_irrel (strat : Strategy) (cap : ℚ) :
    ∀ (f1 f2 : ℕ) (ds : List Debt) (w : ℚ) (m : ℕ),
      maxMonths ≤ m + f1 → maxMonths ≤ m + f2 →
      loopF strat cap f1 ds w m = loopF strat cap f2 ds w m := by
  intro f1
  induction f1 with
  | zero =>
    intro f2 ds w m h1 h2
    rcases f2 with _ | f2
    · rfl
    · rw [loopF, loopF, if_neg]
      intro hg
      rw [maxMonths] at hg h1
      omega
  | succ f1 ih =>
    intro f2 ds w m h1 h2
    rcases f2 with _ | f2
    · rw [loopF, loopF, if_neg]
      intro hg
      rw [maxMonths] at hg h2
      omega
    · rw [loopF]
      conv_rhs => rw [loopF]
      by_cases hg : (0 < totalOf ds ∨ m < 12) ∧ m < maxMonths
      · rw [if_pos hg, if_pos hg]
        dsimp only
        rw [ih f2 _ _ (m + 1) (by omega) (by omega)]
      · rw [if_neg hg, if_neg hg]

theorem loopF_eq_simStates (strat : Strategy) (cap : ℚ) :
    ∀ (f : ℕ) (ds : List Debt) (w : ℚ) (m : ℕ),
      loopF strat cap f ds w m =
        (simStates strat cap f ds w m).map
          (fun s => mkPoint s.1 (totalOf s.2.1) s.2.2) := by
  intro f
  induction f with
  | zero => intro ds w m; rw [loopF, simStates]; rfl
  | succ f ih =>
    intro ds w m
    rw [loopF]
    conv_rhs => rw [simStates]
    by_cases hg : (0 < totalOf ds ∨ m < 12) ∧ m < maxMonths
    · rw [if_pos hg, if_pos hg]
      dsimp only
      rw [List.map_cons, ih]
    · rw [if_neg hg, if_neg hg]
      rfl

theorem totalOf_nil : totalOf [] = 0 := rfl

theorem totalOf_cons (d : Debt) (ds : List Debt) :
    totalOf (d :: ds) = d.currentAmount + totalOf ds := by
  rw [totalOf, List.map_cons, List.sum_cons, totalOf]

theorem totalOf_eq_zero {ds : List Debt}
    (hz : ∀ d ∈ ds, d.currentAmount = 0) : totalOf ds = 0 := by
  induction ds with
  | nil => rfl
  | cons d ds ih =>
    rw [totalOf_cons, hz d (List.mem_cons_self _ _),
      ih fun e he => hz e (List.mem_cons_of_mem _ he), add_zero]

theorem payMinimums_fst :
    ∀ (ds : List Debt) (b : ℚ), (payMinimums ds b).1 = ds.map payMinOne := by
  intro ds
  induction ds with
  | nil => intro b; rfl
  | cons d ds ih =>
    intro b
    rw [payMinimums, List.map_cons]
    by_cases hd : 0 < d.currentAmount
    · rw [if_pos hd]
      dsimp only
      rw [ih, payMinOne, if_pos hd]
    · rw [if_neg hd]
      dsimp only
      rw [ih, payMinOne, if_neg hd]

theorem payMinimums_snd :
    ∀ (ds : List Debt) (b : ℚ), (payMinimums ds b).2 = b - minDue ds := by
  intro ds
  induction ds with
  | nil => intro b; rw [payMinimums, minDue]; simp
  | cons d ds ih =>
    intro b
    rw [payMinimums]
    have hm : minDue (d :: ds) =
        (if 0 < d.currentAmount then jsMin d.currentAmount d.minPayment else 0)
          + minDue ds := by
      rw [minDue, List.map_cons, List.sum_cons, minDue]
    by_cases hd : 0 < d.currentAmount
    · rw [if_pos hd]
      dsimp only
      rw [ih, hm, if_pos hd, sub_sub]
    · rw [if_neg hd]
      dsimp only
      rw [ih, hm, if_neg hd, zero_add]

/-- C10: the login gate fires onLogin(selectedUser) exactly when a user is
selected and the PIN is the string 2024; with a selected user and any other
PIN it sets the error message PIN Incorrecto, clears the PIN field and
stays logged out. -/
theorem C10_login_gate (su : Option String) (pin : String) (u : String) :
    (handleLogin su pin = .login u ↔ su = some u ∧ pin = "2024") ∧
    (su = some u → pin ≠ "2024" →
      handleLogin su pin = .rejected "PIN Incorrecto" "") := by
  constructor
  · constructor
    · intro h
      cases su with
      | none => rw [handleLogin] at h; cases h
      | some v =>
        rw [handleLogin] at h
        by_cases hp : pin = "2024"
        · rw [if_pos hp] at h
          simp only [LoginResult.login.injEq] at h
          exact ⟨by rw [h], hp⟩
        · rw [if_neg hp] at h; cases h
    · rintro ⟨rfl, rfl⟩
      rw [handleLogin, if_pos rfl]
  · rintro rfl hp
    rw [handleLogin, if_neg hp]

/-- C10 witness: with Edna selected, PIN 1111 is rejected with the error
message and a cleared PIN field, and PIN 2024 logs in. -/
theorem C10_login_gate_witness :
    handleLogin (some "Edna") "1111" = .rejected "PIN Incorrecto" "" ∧
    handleLogin (some "Edna") "2024" = .login "Edna" :=
  ⟨(C10_login_gate (some "Edna") "1111" "Edna").2 rfl (by decide),
    (C10_login_gate (some "Edna") "2024" "Edna").1.mpr ⟨rfl, rfl⟩⟩

/-- C2 counterexample: on an empty debt list the projection engine returns
none rather than a Projection holding only the seed point with
debtFreeMonthIndex 0. -/
theorem C2_cx : ¬ ∃ p : Projection,
    projection .avalanche 100 [] = some p ∧
    p.data.length = 1 ∧ p.debtFreeInMonths = 0 := by
  rintro ⟨p, hp, -, -⟩
  have hn : projection .avalanche (100 : ℚ) [] = none := by decide
  rw [hn] at hp
  cases hp

/-- C2 amended: if the debt list is empty or every balance is zero, the
projection engine returns none (no Projection at all, the early return of
the source), and the advisor likewise returns none. -/
theorem C2_no_debt_returns_none (strat : Strategy) (cap : ℚ)
    (debts : List Debt) (hz : ∀ d ∈ debts, d.currentAmount = 0) :
    projection strat cap debts = none ∧ analysis debts = none := by
  constructor
  · rw [projection, if_pos (totalOf_eq_zero hz)]
  · have hf : debts.filter (fun d => decide (0 < d.currentAmount)) = [] := by
      rw [List.filter_eq_nil_iff]
      intro a ha
      simp [hz a ha]
    rw [analysis]
    dsimp only
    rw [hf]
    rfl

/-- C2 witness: a single already-paid debt yields no projection and no
recommendation. -/
theorem C2_no_debt_returns_none_witness :
    projection .avalanche 100 [⟨"A", 0, none, 50⟩] = none ∧
    analysis [⟨"A", 0, none, 50⟩] = none :=
  C2_no_debt_returns_none .avalanche 100 [⟨"A", 0, none, 50⟩] (by decide)

/-- C3 counterexample: with two debts of balance 100 and minimum 100 but a
budget of only 50, the minimum-payment pass deducts 200 from the debts,
more than the budget, and the running budget ends at -150, refuting the
claim that payments are clamped to the remaining budget and that the
budget never goes negative. -/
theorem C3_cx :
    (payMinimums [⟨"A", 100, none, 100⟩, ⟨"B", 100, none, 100⟩] 50).2 = -150 ∧
    totalOf [⟨"A", 100, none, 100⟩, ⟨"B", 100, none, 100⟩] -
      totalOf (payMinimums [⟨"A", 100, none, 100⟩, ⟨"B", 100, none, 100⟩] 50).1
      = 200 ∧
    ¬ ((200 : ℚ) ≤ 50) ∧ ¬ ((0 : ℚ) ≤ -150) := by decide

/-- C3 amended: the minimum-payment pass pays every debt with positive
balance its min(balance, minPayment) unconditionally, never limited by the
remaining budget; the budget ends at its initial value minus the full sum
of those payments and may go negative, in which case the extra-payment
pass pays nothing (it runs only on a strictly positive leftover budget). -/
theorem C3_min_pass_unclamped (strat : Strategy) (ds : List Debt) (b : ℚ) :
    (payMinimums ds b).1 = ds.map payMinOne ∧
    (payMinimums ds b).2 = b - minDue ds ∧
    (b ≤ 0 → payExtra strat ds b = (ds, b, 0)) := by
  refine ⟨payMinimums_fst ds b, payMinimums_snd ds b, fun hb => ?_⟩
  rw [payExtra, if_neg (not_lt.mpr hb)]

/-- C3 witness: the amended statement applied to a concrete degraded
budget, with the extra pass skipped on the negative leftover. -/
theorem C3_min_pass_unclamped_witness :
    (payMinimums [⟨"A", 100, none, 100⟩, ⟨"B", 100, none, 100⟩] 50).1 =
      [⟨"A", 100, none, 100⟩, ⟨"B", 100, none, 100⟩].map payMinOne ∧
    (payMinimums [⟨"A", 100, none, 100⟩, ⟨"B", 100, none, 100⟩] 50).2 =
      50 - minDue [⟨"A", 100, none, 100⟩, ⟨"B", 100, none, 100⟩] ∧
    payExtra .avalanche [⟨"A", 100, none, 100⟩, ⟨"B", 100, none, 100⟩] (-150) =
      ([⟨"A", 100, none, 100⟩, ⟨"B", 100, none, 100⟩], -150, 0) :=
  ⟨(C3_min_pass_unclamped .avalanche _ 50).1,
    (C3_min_pass_unclamped .avalanche _ 50).2.1,
    (C3_min_pass_unclamped .avalanche _ (-150)).2.2 (by decide)⟩

/-- C4: whenever leftover budget remains after minimums and some debt is
still active, the extra pass selects exactly one target (first active debt
with smallest balance under snowball, highest rate-or-0 under avalanche,
ties to the earlier debt) and applies min(targetBalance, leftover) entirely
to it, updating a single list position and leaving wealth untouched. -/
theorem C4_extra_single_target (strat : Strategy) (ds : List Debt) (b : ℚ)
    (hb : 0 < b) (hex : ∃ d ∈ ds, 0 < d.currentAmount) :
    ∃ i d, targetOf strat ds = some (i, d) ∧ d ∈ ds ∧ 0 < d.currentAmount ∧
      payExtra strat ds b =
        (ds.set i
          { d with currentAmount := d.currentAmount - jsMin d.currentAmount b },
          b - jsMin d.currentAmount b, 0) ∧
      (strat = .snowball → ∀ e ∈ ds, 0 < e.currentAmount →
        d.currentAmount ≤ e.currentAmount) ∧
      (strat = .avalanche → ∀ e ∈ ds, 0 < e.currentAmount →
        rateOr0 e ≤ rateOr0 d) := by
  obtain ⟨d0, hd0, hact0⟩ := hex
  cases strat with
  | snowball =>
    rcases ht : firstMinBy Debt.currentAmount ds with _ | ⟨i, d⟩
    · exact absurd hact0 (firstMinBy_none ht d0 hd0)
    · obtain ⟨hmem, hact⟩ := firstMinBy_mem ht
      have ht2 : targetOf .snowball ds = some (i, d) := ht
      refine ⟨i, d, ht2, hmem, hact, ?_, ?_, ?_⟩
      · rw [payExtra, if_pos hb, ht2]
      · exact fun _ e he hacte => firstMinBy_le ht e he hacte
      · exact fun h => Strategy.noConfusion h
  | avalanche =>
    rcases ht : firstMaxBy rateOr0 ds with _ | ⟨i, d⟩
    · exact absurd hact0 (firstMaxBy_none ht d0 hd0)
    · obtain ⟨hmem, hact⟩ := firstMaxBy_mem ht
      have ht2 : targetOf .avalanche ds = some (i, d) := ht
      refine ⟨i, d, ht2, hmem, hact, ?_, ?_, ?_⟩
      · rw [payExtra, if_pos hb, ht2]
      · exact fun h => Strategy.noConfusion h
      · exact fun _ e he hacte => firstMaxBy_le ht e he hacte

/-- C4 witness: with leftover budget 200 on the Scenario B state, the
extra pass picks exactly one avalanche target and pays it the whole 200. -/
theorem C4_extra_single_target_witness :
    ∃ i d, targetOf .avalanche scenarioB = some (i, d) ∧
      d ∈ scenarioB ∧ 0 < d.currentAmount ∧
      payExtra .avalanche scenarioB 200 =
        (scenarioB.set i
          { d with currentAmount := d.currentAmount - jsMin d.currentAmount 200 },
          200 - jsMin d.currentAmount 200, 0) ∧
      (Strategy.avalanche = .snowball → ∀ e ∈ scenarioB,
        0 < e.currentAmount → d.currentAmount ≤ e.currentAmount) ∧
      (Strategy.avalanche = .avalanche → ∀ e ∈ scenarioB,
        0 < e.currentAmount → rateOr0 e ≤ rateOr0 d) :=
  C4_extra_single_target .avalanche scenarioB 200
    (by decide) ⟨⟨"A", 950, some 60, 100⟩, by decide, by decide⟩

/-- C6: in a simulated month each debt with positive balance and positive
rate has exactly balance * (rate / 100) / 12 added, a debt with an absent
or zero rate is unchanged by the interest step, and the month applies the
payment passes to the post-interest balances (interest accrues on the
pre-payment balance, before any payment is subtracted). -/
theorem C6_interest_accrual (strat : Strategy) (cap w : ℚ) (ds : List Debt)
    (d : Debt) :
    (∀ r : ℚ, d.interestRate = some r → 0 < r → 0 < d.currentAmount →
      (applyInterest d).currentAmount
        = d.currentAmount + d.currentAmount * (r / 100 / 12)) ∧
    (d.interestRate = none ∨ d.interestRate = some 0 → applyInterest d = d) ∧
    monthStep strat cap ds w = monthPay strat cap (ds.map applyInterest) w := by
  refine ⟨?_, ?_, rfl⟩
  · intro r hr hpos hact
    rw [applyInterest, hr]
    dsimp only
    rw [if_pos ⟨hact, ne_of_gt hpos⟩]
  · rintro (hn | h0)
    · rw [applyInterest, hn]
    · rw [applyInterest, h0]
      dsimp only
      rw [if_neg fun hc => hc.2 rfl]

/-- C6 witness: a debt of 1200 at 10 percent annual rate gains exactly
1200 * (10/100)/12 = 10 in one interest step; debts with no rate or rate 0
are untouched. -/
theorem C6_interest_accrual_witness :
    (applyInterest ⟨"A", 1200, some 10, 0⟩).currentAmount
      = 1200 + 1200 * (10 / 100 / 12) ∧
    applyInterest ⟨"B", 500, none, 0⟩ = ⟨"B", 500, none, 0⟩ ∧
    applyInterest ⟨"C", 500, some 0, 10⟩ = ⟨"C", 500, some 0, 10⟩ :=
  ⟨(C6_interest_accrual .avalanche 0 0 [] ⟨"A", 1200, some 10, 0⟩).1 10 rfl
      (by decide) (by decide),
    (C6_interest_accrual .avalanche 0 0 [] ⟨"B", 500, none, 0⟩).2.1 (Or.inl rfl),
    (C6_interest_accrual .avalanche 0 0 [] ⟨"C", 500, some 0, 10⟩).2.1 (Or.inr rfl)⟩

/-- C7: every projection run simulates at least 12 and at most 60 months
(the point list holds the seed plus one point per month, so between 13 and
61 points), and the run is ended by the loop guard alone: giving the loop
any fuel beyond the 60-month horizon produces the identical point list. -/
theorem C7_loop_horizon (strat : Strategy) (cap : ℚ) (ds : List Debt)
    (p : Projection) (hp : projection strat cap ds = some p) :
    13 ≤ p.data.length ∧ p.data.length ≤ 61 ∧
    ∀ f : ℕ, maxMonths ≤ f →
      loopF strat cap f ds 0 0 = loopF strat cap maxMonths ds 0 0 := by
  have hne : ¬ totalOf ds = 0 := by
    intro h
    rw [projection, if_pos h] at hp
    cases hp
  rw [projection, if_neg hne] at hp
  dsimp only at hp
  obtain rfl := Option.some_inj.mp hp
  refine ⟨?_, ?_, ?_⟩
  · have h12 := loopF_length_ge strat cap maxMonths ds 0 0
      (by rw [maxMonths]; omega)
    rw [List.length_cons]
    omega
  · have h60 := loopF_length_le strat cap maxMonths ds 0 0
    have hmm : maxMonths = 60 := rfl
    rw [List.length_cons]
    omega
  · intro f hf
    exact loopF_fuel_irrel strat cap f maxMonths ds 0 0
      (by omega) (by omega)

/-- C7 witness: a concrete run (one debt of 100 paid off in month 1) still
produces 13 points, within the 61-point bound. -/
theorem C7_loop_horizon_witness :
    ∃ p : Projection,
      projection .avalanche 100 [⟨"A", 100, none, 100⟩] = some p ∧
      13 ≤ p.data.length ∧ p.data.length ≤ 61 := by
  rcases hE : projection .avalanche 100 [⟨"A", 100, none, 100⟩] with _ | p
  · exact absurd hE (by decide)
  · exact ⟨p, rfl,
      (C7_loop_horizon .avalanche 100 [⟨"A", 100, none, 100⟩] p hE).1,
      (C7_loop_horizon .avalanche 100 [⟨"A", 100, none, 100⟩] p hE).2.1⟩

/-- C1: evaluation of the engine at a failing input.  One debt of 100 with
no interest and minimum 100, budget 100: the debt is gone after month 1,
yet from month 2 on the emitted wealth grows by 200 per month, twice the
monthly budget, because the no-active-debt branch of the extra pass adds
the whole budget to wealth without consuming it and the leftover-budget
check then adds the same budget again. -/
theorem C1_wealth_double_added :
    ((projection .avalanche 100 [⟨"A", 100, none, 100⟩]).map fun p =>
      p.data.map fun q => (q.index, q.deuda, q.riqueza))
      = some [(0, 100, 0), (1, 0, 0), (2, 0, 200), (3, 0, 400), (4, 0, 600),
          (5, 0, 800), (6, 0, 1000), (7, 0, 1200), (8, 0, 1400), (9, 0, 1600),
          (10, 0, 1800), (11, 0, 2000), (12, 0, 2200)] := by decide

/-- C9 counterexample: with one debt whose balance is the non-integral 1/2,
the seed point of the projection carries the raw value 1/2, which differs
from the claimed rounded-and-floored value max(0, round(1/2)) = 1, so not
every point of the sequence is rounded. -/
theorem C9_cx :
    ((projection .avalanche 1 [⟨"A", 1/2, none, 1⟩]).map fun p =>
      (p.data.map fun q => q.deuda).head?) = some (some (1/2)) ∧
    ((1 : ℚ)/2) ≠ ((jsMax 0 (jsRound (1/2)) : ℤ) : ℚ) := by decide

/-- C9 amended: the seed point holds the raw, unrounded current total debt
with wealth 0; every later point is the image of the raw simulated
state of that month under rounding, with totalDebt = max(0, round(sum of balances)) and
wealth = round(accumulatedWealth). -/
theorem C9_points_rounded (strat : Strategy) (cap : ℚ) (ds : List Debt)
    (p : Projection) (hp : projection strat cap ds = some p) :
    p.data.head? = some ⟨"Hoy", totalOf ds, 0, 0⟩ ∧
    p.data.tail = (simStates strat cap maxMonths ds 0 0).map
      (fun s => mkPoint s.1 (totalOf s.2.1) s.2.2) ∧
    ∀ s ∈ simStates strat cap maxMonths ds 0 0,
      (mkPoint s.1 (totalOf s.2.1) s.2.2).deuda
        = ((jsMax 0 (jsRound (totalOf s.2.1)) : ℤ) : ℚ) ∧
      (mkPoint s.1 (totalOf s.2.1) s.2.2).riqueza
        = ((jsRound s.2.2 : ℤ) : ℚ) := by
  have hne : ¬ totalOf ds = 0 := by
    intro h
    rw [projection, if_pos h] at hp
    cases hp
  rw [projection, if_neg hne] at hp
  dsimp only at hp
  obtain rfl := Option.some_inj.mp hp
  refine ⟨rfl, ?_, ?_⟩
  · rw [List.tail_cons]
    exact loopF_eq_simStates strat cap maxMonths ds 0 0
  · intro s _
    exact ⟨rfl, rfl⟩

/-- C9 witness: the amended statement at the 1/2-balance input, exhibiting
the raw seed point. -/
theorem C9_points_rounded_witness :
    ∃ p : Projection,
      projection .avalanche 1 [⟨"A", 1/2, none, 1⟩] = some p ∧
      p.data.head? = some ⟨"Hoy", totalOf [⟨"A", 1/2, none, 1⟩], 0, 0⟩ := by
  rcases hE : projection .avalanche 1 [⟨"A", 1/2, none, 1⟩] with _ | p
  · exact absurd hE (by decide)
  · exact ⟨p, rfl, (C9_points_rounded .avalanche 1 [⟨"A", 1/2, none, 1⟩] p hE).1⟩

/-- C5: for a debt list with at least one active debt the advisor returns
a recommendation whose cited debts are the active debt of maximal
rate-or-0 and the active debt of minimal balance, and whose decision
follows the ordered rules: rate above 40 gives avalanche citing that debt;
otherwise a smallest balance below 5000 gives snowball citing that debt;
otherwise avalanche with the general mathematical justification. -/
theorem C5_advisor_rules (debts : List Debt)
    (hex : ∃ d ∈ debts, 0 < d.currentAmount) :
    ∃ a, analysis debts = some a ∧
      a.maxInterestDebt ∈ debts ∧ 0 < a.maxInterestDebt.currentAmount ∧
      (∀ d ∈ debts, 0 < d.currentAmount →
        rateOr0 d ≤ rateOr0 a.maxInterestDebt) ∧
      a.minBalanceDebt ∈ debts ∧ 0 < a.minBalanceDebt.currentAmount ∧
      (∀ d ∈ debts, 0 < d.currentAmount →
        a.minBalanceDebt.currentAmount ≤ d.currentAmount) ∧
      (40 < rateOr0 a.maxInterestDebt →
        a.recommended = .avalanche ∧
        a.reason = .highInterest a.maxInterestDebt.name
          (rateOr0 a.maxInterestDebt)) ∧
      (rateOr0 a.maxInterestDebt ≤ 40 →
        a.minBalanceDebt.currentAmount < 5000 →
        a.recommended = .snowball ∧
        a.reason = .smallDebt a.minBalanceDebt.name
          a.minBalanceDebt.currentAmount) ∧
      (rateOr0 a.maxInterestDebt ≤ 40 →
        5000 ≤ a.minBalanceDebt.currentAmount →
        a.recommended = .avalanche ∧ a.reason = .math) := by
  obtain ⟨d0, hd0, hact0⟩ := hex
  have hd0A : d0 ∈ debts.filter (fun d => decide (0 < d.currentAmount)) :=
    List.mem_filter.mpr ⟨hd0, by simpa using hact0⟩
  rcases hmax : firstMaxBy rateOr0
      (debts.filter fun d => decide (0 < d.currentAmount)) with _ | ⟨i, maxD⟩
  · exact absurd hact0 (firstMaxBy_none hmax d0 hd0A)
  rcases hmin : firstMinBy Debt.currentAmount
      (debts.filter fun d => decide (0 < d.currentAmount)) with _ | ⟨i2, minD⟩
  · exact absurd hact0 (firstMinBy_none hmin d0 hd0A)
  obtain ⟨hmemA, hactmax⟩ := firstMaxBy_mem hmax
  obtain ⟨hmemA2, hactmin⟩ := firstMinBy_mem hmin
  have hmem : maxD ∈ debts := (List.mem_filter.mp hmemA).1
  have hmem2 : minD ∈ debts := (List.mem_filter.mp hmemA2).1
  have hle : ∀ d ∈ debts, 0 < d.currentAmount → rateOr0 d ≤ rateOr0 maxD :=
    fun d hd ha =>
      firstMaxBy_le hmax d (List.mem_filter.mpr ⟨hd, by simpa using ha⟩) ha
  have hle2 : ∀ d ∈ debts, 0 < d.currentAmount →
      minD.currentAmount ≤ d.currentAmount :=
    fun d hd ha =>
      firstMinBy_le hmin d (List.mem_filter.mpr ⟨hd, by simpa using ha⟩) ha
  by_cases h1 : 40 < rateOr0 maxD
  · have han : analysis debts =
        some ⟨.avalanche, .highInterest maxD.name (rateOr0 maxD), maxD, minD⟩ := by
      rw [analysis]
      dsimp only
      rw [hmax, hmin]
      dsimp only
      rw [if_pos h1]
    refine ⟨_, han, hmem, hactmax, hle, hmem2, hactmin, hle2, ?_, ?_, ?_⟩
    · exact fun _ => ⟨rfl, rfl⟩
    · exact fun hc _ => absurd h1 (not_lt.mpr hc)
    · exact fun hc _ => absurd h1 (not_lt.mpr hc)
  · by_cases h2 : minD.currentAmount < 5000
    · have han : analysis debts =
          some ⟨.snowball, .smallDebt minD.name minD.currentAmount,
            maxD, minD⟩ := by
        rw [analysis]
        dsimp only
        rw [hmax, hmin]
        dsimp only
        rw [if_neg h1, if_pos h2]
      refine ⟨_, han, hmem, hactmax, hle, hmem2, hactmin, hle2, ?_, ?_, ?_⟩
      · exact fun hc => absurd hc h1
      · exact fun _ _ => ⟨rfl, rfl⟩
      · exact fun _ hc => absurd h2 (not_lt.mpr hc)
    · have han : analysis debts = some ⟨.avalanche, .math, maxD, minD⟩ := by
        rw [analysis]
        dsimp only
        rw [hmax, hmin]
        dsimp only
        rw [if_neg h1, if_neg h2]
      refine ⟨_, han, hmem, hactmax, hle, hmem2, hactmin, hle2, ?_, ?_, ?_⟩
      · exact fun hc => absurd hc h1
      · exact fun _ hc => absurd hc h2
      · exact fun _ _ => ⟨rfl, rfl⟩

/-- C5 witness: on a single active debt with rate 60, the advisor fires
rule 1 (avalanche, citing the debt). -/
theorem C5_advisor_rules_witness :
    ∃ a, analysis adviceInput = some a ∧
      a.maxInterestDebt ∈ adviceInput ∧ 0 < a.maxInterestDebt.currentAmount ∧
      (∀ d ∈ adviceInput, 0 < d.currentAmount →
        rateOr0 d ≤ rateOr0 a.maxInterestDebt) ∧
      a.minBalanceDebt ∈ adviceInput ∧ 0 < a.minBalanceDebt.currentAmount ∧
      (∀ d ∈ adviceInput, 0 < d.currentAmount →
        a.minBalanceDebt.currentAmount ≤ d.currentAmount) ∧
      (40 < rateOr0 a.maxInterestDebt →
        a.recommended = .avalanche ∧
        a.reason = .highInterest a.maxInterestDebt.name
          (rateOr0 a.maxInterestDebt)) ∧
      (rateOr0 a.maxInterestDebt ≤ 40 →
        a.minBalanceDebt.currentAmount < 5000 →
        a.recommended = .snowball ∧
        a.reason = .smallDebt a.minBalanceDebt.name
          a.minBalanceDebt.currentAmount) ∧
      (rateOr0 a.maxInterestDebt ≤ 40 →
        5000 ≤ a.minBalanceDebt.currentAmount →
        a.recommended = .avalanche ∧ a.reason = .math) :=
  C5_advisor_rules adviceInput
    ⟨⟨"Visa", 1000, some 60, 100⟩, by decide, by decide⟩

theorem firstMaxBy_first_max {k : Debt → ℚ} {l : List Debt} (i : ℕ)
    (hi : i < l.length) (hacti : 0 < (l[i]).currentAmount)
    (hmaxk : ∀ m2 (hm : m2 < l.length), 0 < (l[m2]).currentAmount →
      k l[m2] ≤ k l[i])
    (hfirst : ∀ m2 (hm : m2 < l.length), m2 < i →
      0 < (l[m2]).currentAmount → k l[m2] < k l[i]) :
    firstMaxBy k l = some (i, l[i]) := by
  rcases hm : firstMaxBy k l with _ | ⟨i0, d0⟩
  · exact absurd hacti (firstMaxBy_none hm _ (List.getElem_mem hi))
  · obtain ⟨hi0, hget0, hstrict0⟩ := firstMaxBy_idx hm
    have hact0 : 0 < (l[i0]).currentAmount := by
      rw [hget0]; exact (firstMaxBy_mem hm).2
    have hk1 : k d0 ≤ k l[i] := by rw [← hget0]; exact hmaxk i0 hi0 hact0
    have hk2 : k l[i] ≤ k d0 :=
      firstMaxBy_le hm _ (List.getElem_mem hi) hacti
    have heqk : k d0 = k l[i] := le_antisymm hk1 hk2
    rcases lt_trichotomy i0 i with h | h | h
    · have hlt := hfirst i0 hi0 h hact0
      rw [hget0, heqk] at hlt
      exact absurd hlt (lt_irrefl _)
    · subst h
      rw [← hget0]
    · have hlt := hstrict0 i hi h hacti
      rw [heqk] at hlt
      exact absurd hlt (lt_irrefl _)

theorem firstMinBy_first_min {k : Debt → ℚ} {l : List Debt} (i : ℕ)
    (hi : i < l.length) (hacti : 0 < (l[i]).currentAmount)
    (hmink : ∀ m2 (hm : m2 < l.length), 0 < (l[m2]).currentAmount →
      k l[i] ≤ k l[m2])
    (hfirst : ∀ m2 (hm : m2 < l.length), m2 < i →
      0 < (l[m2]).currentAmount → k l[i] < k l[m2]) :
    firstMinBy k l = some (i, l[i]) := by
  rcases hm : firstMinBy k l with _ | ⟨i0, d0⟩
  · exact absurd hacti (firstMinBy_none hm _ (List.getElem_mem hi))
  · obtain ⟨hi0, hget0, hstrict0⟩ := firstMinBy_idx hm
    have hact0 : 0 < (l[i0]).currentAmount := by
      rw [hget0]; exact (firstMinBy_mem hm).2
    have hk1 : k l[i] ≤ k d0 := by rw [← hget0]; exact hmink i0 hi0 hact0
    have hk2 : k d0 ≤ k l[i] :=
      firstMinBy_le hm _ (List.getElem_mem hi) hacti
    have heqk : k d0 = k l[i] := le_antisymm hk2 hk1
    rcases lt_trichotomy i0 i with h | h | h
    · have hlt := hfirst i0 hi0 h hact0
      rw [hget0, heqk] at hlt
      exact absurd hlt (lt_irrefl _)
    · subst h
      rw [← hget0]
    · have hlt := hstrict0 i hi h hacti
      rw [heqk] at hlt
      exact absurd hlt (lt_irrefl _)

theorem firstMaxBy_filter (k : Debt → ℚ) :
    ∀ l : List Debt,
      (firstMaxBy k (l.filter fun d => decide (0 < d.currentAmount))).map
          Prod.snd
        = (firstMaxBy k l).map Prod.snd := by
  intro l
  induction l with
  | nil => rfl
  | cons x l ih =>
    rw [List.filter_cons]
    by_cases hx : 0 < x.currentAmount
    · rw [if_pos (by simpa using hx)]
      rw [firstMaxBy, firstMaxBy]
      rcases hA : firstMaxBy k
          (l.filter fun d => decide (0 < d.currentAmount)) with _ | ⟨jA, cA⟩
      · rcases hB : firstMaxBy k l with _ | ⟨jB, cB⟩
        · rfl
        · rw [hA, hB] at ih
          simp at ih
      · rcases hB : firstMaxBy k l with _ | ⟨jB, cB⟩
        · rw [hA, hB] at ih
          simp at ih
        · rw [hA, hB] at ih
          obtain rfl : cA = cB := by simpa using ih
          dsimp only
          rw [if_pos hx, if_pos hx]
          by_cases hk : k x < k cA <;> simp [hk]
    · rw [if_neg (by simpa using hx)]
      rw [firstMaxBy]
      rcases hB : firstMaxBy k l with _ | ⟨jB, cB⟩ <;> rw [hB] at ih
      · dsimp only
        rw [if_neg hx]
        exact ih
      · dsimp only
        rw [if_neg hx]
        simpa using ih

theorem firstMinBy_filter (k : Debt → ℚ) :
    ∀ l : List Debt,
      (firstMinBy k (l.filter fun d => decide (0 < d.currentAmount))).map
          Prod.snd
        = (firstMinBy k l).map Prod.snd := by
  intro l
  induction l with
  | nil => rfl
  | cons x l ih =>
    rw [List.filter_cons]
    by_cases hx : 0 < x.currentAmount
    · rw [if_pos (by simpa using hx)]
      rw [firstMinBy, firstMinBy]
      rcases hA : firstMinBy k
          (l.filter fun d => decide (0 < d.currentAmount)) with _ | ⟨jA, cA⟩
      · rcases hB : firstMinBy k l with _ | ⟨jB, cB⟩
        · rfl
        · rw [hA, hB] at ih
          simp at ih
      · rcases hB : firstMinBy k l with _ | ⟨jB, cB⟩
        · rw [hA, hB] at ih
          simp at ih
        · rw [hA, hB] at ih
          obtain rfl : cA = cB := by simpa using ih
          dsimp only
          rw [if_pos hx, if_pos hx]
          by_cases hk : k cA < k x <;> simp [hk]
    · rw [if_neg (by simpa using hx)]
      rw [firstMinBy]
      rcases hB : firstMinBy k l with _ | ⟨jB, cB⟩ <;> rw [hB] at ih
      · dsimp only
        rw [if_neg hx]
        exact ih
      · dsimp only
        rw [if_neg hx]
        simpa using ih

/-- C8: in any debt list, which may also contain paid-off zero-balance
debts, with two active debts i and j tied on the decisive key, where the
earlier debt i is the first active debt attaining the maximal rate-or-0
(resp. minimal balance) among the active debts, both the debt cited by the
advisor and the extra-pass target of the engine are the debt at position
i, the first occurrence in input order -- never the later tied debt j. -/
theorem C8_tie_break (l : List Debt) :
    (∀ i j (hi : i < l.length) (hj : j < l.length), i < j →
      0 < (l[i]).currentAmount → 0 < (l[j]).currentAmount →
      rateOr0 l[i] = rateOr0 l[j] →
      (∀ m2 (hm : m2 < l.length), 0 < (l[m2]).currentAmount →
        rateOr0 l[m2] ≤ rateOr0 l[i]) →
      (∀ m2 (hm : m2 < l.length), m2 < i → 0 < (l[m2]).currentAmount →
        rateOr0 l[m2] < rateOr0 l[i]) →
      (analysis l).map Analysis.maxInterestDebt = some l[i] ∧
      targetOf .avalanche l = some (i, l[i])) ∧
    (∀ i j (hi : i < l.length) (hj : j < l.length), i < j →
      0 < (l[i]).currentAmount → 0 < (l[j]).currentAmount →
      (l[i]).currentAmount = (l[j]).currentAmount →
      (∀ m2 (hm : m2 < l.length), 0 < (l[m2]).currentAmount →
        (l[i]).currentAmount ≤ (l[m2]).currentAmount) →
      (∀ m2 (hm : m2 < l.length), m2 < i → 0 < (l[m2]).currentAmount →
        (l[i]).currentAmount < (l[m2]).currentAmount) →
      (analysis l).map Analysis.minBalanceDebt = some l[i] ∧
      targetOf .snowball l = some (i, l[i])) := by
  constructor
  · intro i j hi hj hij hacti hactj heq hmaxk hfirst
    have hM : firstMaxBy rateOr0 l = some (i, l[i]) :=
      firstMaxBy_first_max i hi hacti hmaxk hfirst
    have hiA : l[i] ∈ l.filter (fun d => decide (0 < d.currentAmount)) :=
      List.mem_filter.mpr ⟨List.getElem_mem hi, by simpa using hacti⟩
    have hMA : (firstMaxBy rateOr0
        (l.filter fun d => decide (0 < d.currentAmount))).map Prod.snd
        = some l[i] := by
      rw [firstMaxBy_filter, hM]
      rfl
    rcases hA : firstMaxBy rateOr0
        (l.filter fun d => decide (0 < d.currentAmount)) with _ | ⟨iA, dA⟩
    · rw [hA] at hMA
      simp at hMA
    · rw [hA] at hMA
      obtain rfl : dA = l[i] := by simpa using hMA
      rcases hminA : firstMinBy Debt.currentAmount
          (l.filter fun d => decide (0 < d.currentAmount)) with _ | ⟨i2, minD⟩
      · exact absurd hacti (firstMinBy_none hminA _ hiA)
      · constructor
        · rw [analysis]
          dsimp only
          rw [hA, hminA]
          rfl
        · exact hM
  · intro i j hi hj hij hacti hactj heq hmink hfirst
    have hM : firstMinBy Debt.currentAmount l = some (i, l[i]) :=
      firstMinBy_first_min i hi hacti hmink hfirst
    have hiA : l[i] ∈ l.filter (fun d => decide (0 < d.currentAmount)) :=
      List.mem_filter.mpr ⟨List.getElem_mem hi, by simpa using hacti⟩
    have hMA : (firstMinBy Debt.currentAmount
        (l.filter fun d => decide (0 < d.currentAmount))).map Prod.snd
        = some l[i] := by
      rw [firstMinBy_filter, hM]
      rfl
    rcases hA : firstMinBy Debt.currentAmount
        (l.filter fun d => decide (0 < d.currentAmount)) with _ | ⟨iA, dA⟩
    · rw [hA] at hMA
      simp at hMA
    · rw [hA] at hMA
      obtain rfl : dA = l[i] := by simpa using hMA
      rcases hmaxA : firstMaxBy rateOr0
          (l.filter fun d => decide (0 < d.currentAmount)) with _ | ⟨i2, maxD⟩
      · exact absurd hacti (firstMaxBy_none hmaxA _ hiA)
      · constructor
        · rw [analysis]
          dsimp only
          rw [hmaxA, hA]
          rfl
        · exact hM

/-- C8 witness: on a list whose head is a paid-off zero-balance debt with
the highest rate, followed by the tied active debts A and B, advisor and
engine skip the inactive debt and select A, the first tied occurrence,
under both keys. -/
theorem C8_tie_break_witness :
    ((analysis tiedPair).map Analysis.maxInterestDebt
        = some ⟨"A", 100, some 20, 10⟩ ∧
      targetOf .avalanche tiedPair = some (1, ⟨"A", 100, some 20, 10⟩)) ∧
    ((analysis tiedPair).map Analysis.minBalanceDebt
        = some ⟨"A", 100, some 20, 10⟩ ∧
      targetOf .snowball tiedPair = some (1, ⟨"A", 100, some 20, 10⟩)) :=
  ⟨(C8_tie_break tiedPair).1 1 2 (by decide) (by decide) (by decide)
      (by decide) (by decide) (by decide) (by decide) (by decide),
    (C8_tie_break tiedPair).2 1 2 (by decide) (by decide) (by decide)
      (by decide) (by decide) (by decide) (by decide) (by decide)⟩
